import Mathlib

/-!
Verification of the PDF text-extraction routine
`FinancialDocumentTool.read_data_tool` from `src/tools.py` of the
financial-doc-analyser repository.

Python strings are modelled as `List Char`.  The file system and the
PDF-parsing library are modelled abstractly: a `PdfFile` records whether
`os.path.exists(path)` holds and what `PdfReader(path)` / `page.extract_text()`
do (return pages / text, or raise an exception carrying a message).  The
routine itself is translated statement by statement from the source.
-/

/-- One pass of Python's `content.replace("\n\n", "\n")`: scan left to right,
replacing non-overlapping occurrences of two newlines by one. -/
def collapseOnce : List Char → List Char
  | [] => []
  | [c] => [c]
  | c1 :: c2 :: rest =>
    if c1 = '\n' ∧ c2 = '\n' then '\n' :: collapseOnce rest
    else c1 :: collapseOnce (c2 :: rest)

/-- Python's `"\n\n" in content`: does the string contain two consecutive
newline characters? -/
def hasDoubleNewline : List Char → Bool
  | [] => false
  | [_] => false
  | c1 :: c2 :: rest => (c1 = '\n' && c2 = '\n') || hasDoubleNewline (c2 :: rest)

theorem collapseOnce_nil : collapseOnce [] = [] := rfl

theorem collapseOnce_singleton (c : Char) : collapseOnce [c] = [c] := rfl

theorem collapseOnce_nlnl (r : List Char) :
    collapseOnce ('\n' :: '\n' :: r) = '\n' :: collapseOnce r := by
  simp [collapseOnce]

theorem collapseOnce_cons_ne {d : Char} (hd : d ≠ '\n') (t : List Char) :
    collapseOnce (d :: t) = d :: collapseOnce t := by
  cases t with
  | nil => rfl
  | cons c2 t' => simp [collapseOnce, hd]

theorem hasDoubleNewline_tail {c : Char} {t : List Char}
    (h : hasDoubleNewline (c :: t) = false) : hasDoubleNewline t = false := by
  cases t with
  | nil => rfl
  | cons d t' =>
    simp only [hasDoubleNewline, Bool.or_eq_false_iff] at h
    exact h.2

theorem collapseOnce_length_le : (s : List Char) →
    (collapseOnce s).length ≤ s.length
  | [] => by simp [collapseOnce]
  | [c] => by simp [collapseOnce]
  | c1 :: c2 :: rest => by
    have h1 := collapseOnce_length_le rest
    have h2 := collapseOnce_length_le (c2 :: rest)
    by_cases h : c1 = '\n' ∧ c2 = '\n'
    · simp only [collapseOnce, if_pos h, List.length_cons]
      omega
    · simp only [collapseOnce, if_neg h, List.length_cons] at h2 ⊢
      omega

theorem collapseOnce_length_lt : {s : List Char} →
    hasDoubleNewline s = true → (collapseOnce s).length < s.length
  | [], h => by simp [hasDoubleNewline] at h
  | [c], h => by simp [hasDoubleNewline] at h
  | c1 :: c2 :: rest, h => by
    by_cases hc : c1 = '\n' ∧ c2 = '\n'
    · have h1 := collapseOnce_length_le rest
      simp only [collapseOnce, if_pos hc, List.length_cons]
      omega
    · simp only [hasDoubleNewline, Bool.or_eq_true, Bool.and_eq_true,
        decide_eq_true_eq] at h
      rcases h with h | h
      · exact absurd h hc
      · have h1 := collapseOnce_length_lt (s := c2 :: rest) h
        simp only [collapseOnce, if_neg hc, List.length_cons] at h1 ⊢
        omega

/-- The `while "\n\n" in content:` loop of `read_data_tool`: repeat
`content = content.replace("\n\n", "\n")` while a double newline remains. -/
def collapseLoop (s : List Char) : List Char :=
  if h : hasDoubleNewline s = true then collapseLoop (collapseOnce s) else s
  termination_by s.length
  decreasing_by exact collapseOnce_length_lt h

theorem collapseLoop_of_pos {s : List Char} (h : hasDoubleNewline s = true) :
    collapseLoop s = collapseLoop (collapseOnce s) := by
  rw [collapseLoop]
  simp [h]

theorem collapseLoop_of_neg {s : List Char} (h : hasDoubleNewline s = false) :
    collapseLoop s = s := by
  rw [collapseLoop]
  simp [h]

theorem hasDoubleNewline_cons_cons (c1 c2 : Char) (r : List Char) :
    hasDoubleNewline (c1 :: c2 :: r) =
      ((c1 = '\n' && c2 = '\n') || hasDoubleNewline (c2 :: r)) := rfl

theorem hasDoubleNewline_append_nlnl : (xs ys : List Char) →
    hasDoubleNewline (xs ++ '\n' :: '\n' :: ys) = true
  | [], ys => by simp [hasDoubleNewline]
  | c :: xs, ys => by
    have ih := hasDoubleNewline_append_nlnl xs ys
    cases h : xs ++ '\n' :: '\n' :: ys with
    | nil => simp at h
    | cons d t =>
      rw [List.cons_append, h, hasDoubleNewline_cons_cons, ← h, ih]
      simp

theorem hasDoubleNewline_iff : (s : List Char) →
    (hasDoubleNewline s = true ↔ ∃ xs ys, s = xs ++ '\n' :: '\n' :: ys)
  | [] => by
    constructor
    · intro h; simp [hasDoubleNewline] at h
    · rintro ⟨xs, ys, h⟩; simp at h
  | [c] => by
    constructor
    · intro h; simp [hasDoubleNewline] at h
    · rintro ⟨xs, ys, h⟩
      rcases xs with _ | ⟨a, xs⟩ <;> simp at h
  | c1 :: c2 :: r => by
    have ih := hasDoubleNewline_iff (c2 :: r)
    rw [hasDoubleNewline_cons_cons]
    constructor
    · intro h
      rcases Bool.or_eq_true_iff.mp h with h | h
      · simp only [Bool.and_eq_true, decide_eq_true_eq] at h
        exact ⟨[], r, by simp [h.1, h.2]⟩
      · obtain ⟨xs, ys, hx⟩ := ih.mp h
        exact ⟨c1 :: xs, ys, by simp [hx]⟩
    · rintro ⟨xs, ys, h⟩
      rcases xs with _ | ⟨a, xs⟩
      · simp only [List.nil_append, List.cons.injEq] at h
        simp [h.1, h.2.1]
      · simp only [List.cons_append, List.cons.injEq] at h
        have : hasDoubleNewline (c2 :: r) = true := by
          rw [h.2]
          exact hasDoubleNewline_append_nlnl xs ys
        simp [this]

theorem hasDoubleNewline_reverse (s : List Char) :
    hasDoubleNewline s.reverse = hasDoubleNewline s := by
  have key : ∀ t : List Char, hasDoubleNewline t = true →
      hasDoubleNewline t.reverse = true := by
    intro t ht
    obtain ⟨xs, ys, h⟩ := (hasDoubleNewline_iff t).mp ht
    apply (hasDoubleNewline_iff t.reverse).mpr
    refine ⟨ys.reverse, xs.reverse, ?_⟩
    rw [h]
    simp
  cases hs : hasDoubleNewline s with
  | true => exact key s hs
  | false =>
    cases hr : hasDoubleNewline s.reverse with
    | true =>
      have := key s.reverse hr
      rw [List.reverse_reverse, hs] at this
      exact this.symm
    | false => rfl

theorem hasDoubleNewline_dropWhile (p : Char → Bool) : (s : List Char) →
    hasDoubleNewline s = false → hasDoubleNewline (s.dropWhile p) = false
  | [], h => h
  | c :: t, h => by
    by_cases hp : p c = true
    · rw [List.dropWhile_cons_of_pos hp]
      exact hasDoubleNewline_dropWhile p t (hasDoubleNewline_tail h)
    · rw [List.dropWhile_cons_of_neg hp]
      exact h

/-- Modelled from the spec's words (§4 step 4): collapse every run of one or
more consecutive newline characters down to a single newline, leaving all
other characters untouched.  Used to state the refinement of the `while` loop. -/
def collapseSpec : List Char → List Char
  | [] => []
  | c :: rest =>
    if c = '\n' then '\n' :: collapseSpec (rest.dropWhile (fun d => d = '\n'))
    else c :: collapseSpec rest
  termination_by s => s.length
  decreasing_by
  · have h := (List.dropWhile_sublist (l := rest) (p := fun d => d = '\n')).length_le
    simp only [List.length_cons]
    omega
  · simp only [List.length_cons]
    omega

theorem collapseSpec_nil : collapseSpec [] = [] := by rw [collapseSpec]

theorem collapseSpec_cons_nl (rest : List Char) :
    collapseSpec ('\n' :: rest) =
      '\n' :: collapseSpec (rest.dropWhile (fun d => d = '\n')) := by
  rw [collapseSpec]
  simp

theorem collapseSpec_cons_ne {c : Char} (hc : c ≠ '\n') (rest : List Char) :
    collapseSpec (c :: rest) = c :: collapseSpec rest := by
  rw [collapseSpec]
  simp [hc]

theorem dropWhile_nl_of_head {t : List Char} (ht : t.head? ≠ some '\n') :
    t.dropWhile (fun d => d = '\n') = t := by
  cases t with
  | nil => rfl
  | cons d t' =>
    have hd : d ≠ '\n' := by simpa using ht
    rw [List.dropWhile_cons_of_neg (by simpa using hd)]

theorem collapseSpec_of_noDouble : (s : List Char) →
    hasDoubleNewline s = false → collapseSpec s = s
  | [], _ => collapseSpec_nil
  | c :: t, h => by
    have iht := collapseSpec_of_noDouble t (hasDoubleNewline_tail h)
    by_cases hc : c = '\n'
    · subst hc
      have ht : t.head? ≠ some '\n' := by
        cases t with
        | nil => simp
        | cons d t' =>
          rw [hasDoubleNewline_cons_cons] at h
          simp only [Bool.or_eq_false_iff, Bool.and_eq_false_iff] at h
          rcases h.1 with hd | hd <;> simp_all
      rw [collapseSpec_cons_nl, dropWhile_nl_of_head ht, iht]
    · rw [collapseSpec_cons_ne hc, iht]

theorem collapseOnce_replicate : (k : Nat) → (t : List Char) →
    t.head? ≠ some '\n' →
    collapseOnce (List.replicate k '\n' ++ t) =
      List.replicate ((k + 1) / 2) '\n' ++ collapseOnce t
  | 0, t, _ => by simp
  | 1, t, ht => by
    cases t with
    | nil => simp [collapseOnce]
    | cons d t' =>
      have hd : d ≠ '\n' := by simpa using ht
      simp [collapseOnce, hd]
  | (k + 2), t, ht => by
    have ih := collapseOnce_replicate k t ht
    have hrep : List.replicate (k + 2) '\n' ++ t =
        '\n' :: '\n' :: (List.replicate k '\n' ++ t) := by
      simp [List.replicate_succ]
    rw [hrep, collapseOnce_nlnl, ih,
      show (k + 2 + 1) / 2 = (k + 1) / 2 + 1 by omega]
    simp [List.replicate_succ]

theorem collapseOnce_head {t : List Char} (ht : t.head? ≠ some '\n') :
    (collapseOnce t).head? ≠ some '\n' := by
  cases t with
  | nil => simp [collapseOnce]
  | cons d t' =>
    have hd : d ≠ '\n' := by simpa using ht
    rw [collapseOnce_cons_ne hd]
    simpa using hd

theorem dropWhile_nl_replicate : (k : Nat) → (t : List Char) →
    t.head? ≠ some '\n' →
    (List.replicate k '\n' ++ t).dropWhile (fun d => d = '\n') = t
  | 0, t, ht => by simpa using dropWhile_nl_of_head ht
  | (k + 1), t, ht => by
    rw [List.replicate_succ, List.cons_append,
      List.dropWhile_cons_of_pos (by simp)]
    exact dropWhile_nl_replicate k t ht

theorem collapseSpec_replicate {m : Nat} (hm : 1 ≤ m) {t : List Char}
    (ht : t.head? ≠ some '\n') :
    collapseSpec (List.replicate m '\n' ++ t) = '\n' :: collapseSpec t := by
  obtain ⟨j, rfl⟩ : ∃ j, m = j + 1 := ⟨m - 1, by omega⟩
  rw [List.replicate_succ, List.cons_append, collapseSpec_cons_nl,
    dropWhile_nl_replicate j t ht]

theorem dropWhile_nl_head : (s : List Char) →
    (s.dropWhile (fun d => d = '\n')).head? ≠ some '\n'
  | [] => by simp
  | c :: t => by
    by_cases hc : c = '\n'
    · rw [List.dropWhile_cons_of_pos (by simp [hc])]
      exact dropWhile_nl_head t
    · rw [List.dropWhile_cons_of_neg (by simp [hc])]
      simpa using hc

theorem run_decomposition (s : List Char) :
    ∃ k t, s = List.replicate k '\n' ++ t ∧ t.head? ≠ some '\n' := by
  refine ⟨(s.takeWhile (fun d => d = '\n')).length,
    s.dropWhile (fun d => d = '\n'), ?_, ?_⟩
  · conv_lhs => rw [← List.takeWhile_append_dropWhile
      (p := fun d => d = '\n') (l := s)]
    congr 1
    apply List.eq_replicate_of_mem
    intro b hb
    have := List.mem_takeWhile_imp hb
    simpa using this
  · exact dropWhile_nl_head s

theorem collapseSpec_collapseOnce_aux : (n : Nat) → (s : List Char) →
    s.length ≤ n → collapseSpec (collapseOnce s) = collapseSpec s
  | _, [], _ => by simp [collapseOnce]
  | 0, c :: r, h => by simp at h
  | (n + 1), c :: r, h => by
    by_cases hc : c = '\n'
    · subst hc
      obtain ⟨k, t, hr, ht⟩ := run_decomposition r
      have hs : '\n' :: r = List.replicate (k + 1) '\n' ++ t := by
        simp [hr, List.replicate_succ]
      have hlen : t.length ≤ n := by
        have := congrArg List.length hs
        simp only [List.length_cons, List.length_append,
          List.length_replicate] at this
        simp only [List.length_cons] at h
        omega
      rw [hs, collapseOnce_replicate (k + 1) t ht,
        collapseSpec_replicate (by omega) (collapseOnce_head ht),
        collapseSpec_replicate (by omega) ht,
        collapseSpec_collapseOnce_aux n t hlen]
    · have hr : r.length ≤ n := by
        simp only [List.length_cons] at h
        omega
      rw [collapseOnce_cons_ne hc, collapseSpec_cons_ne hc,
        collapseSpec_cons_ne hc, collapseSpec_collapseOnce_aux n r hr]

theorem collapseSpec_collapseOnce (s : List Char) :
    collapseSpec (collapseOnce s) = collapseSpec s :=
  collapseSpec_collapseOnce_aux s.length s le_rfl

theorem collapseLoop_eq_collapseSpec_aux : (n : Nat) → (s : List Char) →
    s.length ≤ n → collapseLoop s = collapseSpec s
  | n, s, h => by
    cases hd : hasDoubleNewline s with
    | false =>
      rw [collapseLoop_of_neg hd, collapseSpec_of_noDouble s hd]
    | true =>
      cases n with
      | zero =>
        have : s = [] := List.length_eq_zero.mp (by omega)
        subst this
        simp [hasDoubleNewline] at hd
      | succ n =>
        have hlt := collapseOnce_length_lt hd
        rw [collapseLoop_of_pos hd,
          collapseLoop_eq_collapseSpec_aux n (collapseOnce s) (by omega)]
        exact collapseSpec_collapseOnce s

/-- Refinement: the `while` loop of the source equals the spec's run-collapsing
function. -/
theorem collapseLoop_eq_collapseSpec (s : List Char) :
    collapseLoop s = collapseSpec s :=
  collapseLoop_eq_collapseSpec_aux s.length s le_rfl

theorem hasDoubleNewline_collapseLoop_aux : (n : Nat) → (s : List Char) →
    s.length ≤ n → hasDoubleNewline (collapseLoop s) = false
  | n, s, h => by
    cases hd : hasDoubleNewline s with
    | false => rw [collapseLoop_of_neg hd]; exact hd
    | true =>
      cases n with
      | zero =>
        have : s = [] := List.length_eq_zero.mp (by omega)
        subst this
        simp [hasDoubleNewline] at hd
      | succ n =>
        have hlt := collapseOnce_length_lt hd
        rw [collapseLoop_of_pos hd]
        exact hasDoubleNewline_collapseLoop_aux n (collapseOnce s) (by omega)

theorem hasDoubleNewline_collapseLoop (s : List Char) :
    hasDoubleNewline (collapseLoop s) = false :=
  hasDoubleNewline_collapseLoop_aux s.length s le_rfl

/-- The characters stripped by Python's `str.strip()` with no argument
(ASCII whitespace: space, tab, newline, carriage return, vertical tab,
form feed). -/
def pyIsSpace (c : Char) : Bool :=
  c = ' ' || c = '\t' || c = '\n' || c = '\r' || c = '\x0b' || c = '\x0c'

/-- Python's `s.strip()`: drop whitespace from the front, then from the back. -/
def pyStrip (s : List Char) : List Char :=
  ((s.dropWhile pyIsSpace).reverse.dropWhile pyIsSpace).reverse

theorem hasDoubleNewline_pyStrip {s : List Char}
    (h : hasDoubleNewline s = false) : hasDoubleNewline (pyStrip s) = false := by
  have h1 := hasDoubleNewline_dropWhile pyIsSpace s h
  have h2 : hasDoubleNewline (s.dropWhile pyIsSpace).reverse = false := by
    rw [hasDoubleNewline_reverse]; exact h1
  have h3 := hasDoubleNewline_dropWhile pyIsSpace _ h2
  rw [pyStrip, hasDoubleNewline_reverse]
  exact h3

theorem mem_dropWhile_iff_of_all {p : Char → Bool} {s : List Char} :
    (∀ c ∈ s.dropWhile p, p c = true) ↔ (∀ c ∈ s, p c = true) := by
  constructor
  · intro h c hc
    rw [← List.takeWhile_append_dropWhile (p := p) (l := s)] at hc
    rcases List.mem_append.mp hc with hc | hc
    · exact List.mem_takeWhile_imp hc
    · exact h c hc
  · intro h c hc
    exact h c (List.dropWhile_subset p hc)

theorem pyStrip_eq_nil_iff (s : List Char) :
    pyStrip s = [] ↔ ∀ c ∈ s, pyIsSpace c = true := by
  rw [pyStrip, List.reverse_eq_nil_iff, List.dropWhile_eq_nil_iff]
  constructor
  · intro h c hc
    have h' : ∀ d ∈ s.dropWhile pyIsSpace, pyIsSpace d = true := fun d hd =>
      h d (List.mem_reverse.mpr hd)
    exact mem_dropWhile_iff_of_all.mp h' c hc
  · intro h c hc
    exact mem_dropWhile_iff_of_all.mpr h c (List.mem_reverse.mp hc)

theorem mem_collapseOnce : {a : Char} → {s : List Char} →
    a ∈ collapseOnce s → a ∈ s
  | _, [], h => h
  | _, [c], h => h
  | a, c1 :: c2 :: rest, h => by
    by_cases hc : c1 = '\n' ∧ c2 = '\n'
    · rw [collapseOnce, if_pos hc] at h
      rcases List.mem_cons.mp h with h | h
      · simp [h, hc.1]
      · simp [mem_collapseOnce h]
    · rw [collapseOnce, if_neg hc] at h
      rcases List.mem_cons.mp h with h | h
      · simp [h]
      · have := mem_collapseOnce h
        simpa using Or.inr (List.mem_cons.mp this)

theorem mem_collapseLoop_aux : (n : Nat) → {a : Char} → (s : List Char) →
    s.length ≤ n → a ∈ collapseLoop s → a ∈ s
  | n, a, s, hn, h => by
    cases hd : hasDoubleNewline s with
    | false =>
      rw [collapseLoop_of_neg hd] at h
      exact h
    | true =>
      cases n with
      | zero =>
        have : s = [] := List.length_eq_zero.mp (by omega)
        subst this
        simp [hasDoubleNewline] at hd
      | succ n =>
        have hlt := collapseOnce_length_lt hd
        rw [collapseLoop_of_pos hd] at h
        exact mem_collapseOnce
          (mem_collapseLoop_aux n (collapseOnce s) (by omega) h)

theorem mem_collapseLoop {a : Char} {s : List Char}
    (h : a ∈ collapseLoop s) : a ∈ s :=
  mem_collapseLoop_aux s.length s le_rfl h

/-- Behaviour of one `page.extract_text()` call: it either raises an exception
carrying a message, or returns the page's text (possibly empty, or absent). -/
inductive PageText where
  | raise (msg : List Char)
  | text (content : Option (List Char))
deriving DecidableEq

/-- Behaviour of `PdfReader(path)`: it either raises an exception carrying a
message, or yields the document's ordered list of pages. -/
inductive OpenedDoc where
  | raise (msg : List Char)
  | pages (ps : List PageText)
deriving DecidableEq

/-- The file as seen by `read_data_tool`: whether `os.path.exists(path)` holds,
and what opening it as a PDF does. -/
structure PdfFile where
  fileExists : Bool
  doc : OpenedDoc
deriving DecidableEq

/-- The page marker `f"\n--- Page {page_number + 1} ---\n"` (the Python loop
enumerates pages from 0, so the printed number is `page_number + 1`). -/
def pageHeader (pageNumber : Nat) : List Char :=
  "\n--- Page ".data ++ (Nat.repr (pageNumber + 1)).data ++ " ---\n".data

/-- Python truthiness of `content` in `if content:` — `None` and the empty
string are falsy, every other string is truthy. -/
def truthy : Option (List Char) → Bool
  | none => false
  | some c => !c.isEmpty

/-- What one loop iteration appends to `full_report`: nothing when `content`
is falsy, otherwise the page marker followed by the cleaned, stripped text and
a trailing newline. -/
def pageBlock (pageNumber : Nat) (content : Option (List Char)) : List Char :=
  match content with
  | none => []
  | some c =>
    if c.isEmpty then []
    else pageHeader pageNumber ++ (pyStrip (collapseLoop c) ++ ['\n'])

/-- The `for page_number, page in enumerate(reader.pages):` loop: accumulate
the blocks of all pages, aborting with the exception's message if any
`page.extract_text()` call raises. -/
def extractLoop : Nat → List PageText → Except (List Char) (List Char)
  | _, [] => Except.ok []
  | _, PageText.raise msg :: _ => Except.error msg
  | pageNumber, PageText.text content :: rest =>
    Except.map (fun r => pageBlock pageNumber content ++ r)
      (extractLoop (pageNumber + 1) rest)

/-- `FinancialDocumentTool.read_data_tool` from `src/tools.py`, statement by
statement: existence check, open, page loop, empty-report check, and the
top-level `except` converting any exception to an error string. -/
def read_data_tool (path : List Char) (f : PdfFile) : List Char :=
  if f.fileExists = false then "Error: File not found at ".data ++ path
  else
    match f.doc with
    | OpenedDoc.raise msg => "Error reading PDF: ".data ++ msg
    | OpenedDoc.pages ps =>
      match extractLoop 0 ps with
      | Except.error msg => "Error reading PDF: ".data ++ msg
      | Except.ok full_report =>
        if (pyStrip full_report).isEmpty then
          "Warning: No readable text found in the PDF.".data
        else full_report

/-- The per-page blocks of a raise-free document, with their page numbers. -/
def reportBlocks : Nat → List (Option (List Char)) → List (List Char)
  | _, [] => []
  | n, o :: rest => pageBlock n o :: reportBlocks (n + 1) rest

theorem extractLoop_nil (n : Nat) : extractLoop n [] = Except.ok [] := rfl

theorem extractLoop_raise (n : Nat) (msg : List Char) (rest : List PageText) :
    extractLoop n (PageText.raise msg :: rest) = Except.error msg := rfl

theorem extractLoop_text (n : Nat) (content : Option (List Char))
    (rest : List PageText) :
    extractLoop n (PageText.text content :: rest) =
      Except.map (fun r => pageBlock n content ++ r)
        (extractLoop (n + 1) rest) := rfl

theorem extractLoop_map_text : (n : Nat) → (os : List (Option (List Char))) →
    extractLoop n (os.map PageText.text) =
      Except.ok (reportBlocks n os).flatten
  | _, [] => rfl
  | n, o :: os => by
    rw [List.map_cons, extractLoop_text, extractLoop_map_text (n + 1) os]
    simp [Except.map, reportBlocks]

theorem extractLoop_error_of_raise : (n : Nat) → (pre : List PageText) →
    (msg : List Char) → (rest : List PageText) →
    (∀ m, PageText.raise m ∉ pre) →
    extractLoop n (pre ++ PageText.raise msg :: rest) = Except.error msg
  | _, [], msg, rest, _ => rfl
  | n, p :: pre, msg, rest, hpre => by
    cases p with
    | raise m => exact absurd (List.mem_cons_self _ _) (hpre m)
    | text o =>
      rw [List.cons_append, extractLoop_text,
        extractLoop_error_of_raise (n + 1) pre msg rest
          (fun m hm => hpre m (List.mem_cons_of_mem _ hm))]
      rfl

theorem header_lit_eq : "\n--- Page ".data = '\n' :: "--- Page ".data := by
  decide

theorem pageHeader_cons (n : Nat) :
    pageHeader n = '\n' :: ("--- Page ".data ++
      ((Nat.repr (n + 1)).data ++ " ---\n".data)) := by
  rw [pageHeader, header_lit_eq]
  simp

theorem hyphen_mem_pageHeader (n : Nat) : '-' ∈ pageHeader n := by
  rw [pageHeader]
  refine List.mem_append.mpr (Or.inl (List.mem_append.mpr (Or.inl ?_)))
  decide

theorem pageBlock_falsy {o : Option (List Char)} (h : truthy o = false)
    (n : Nat) : pageBlock n o = [] := by
  cases o with
  | none => rfl
  | some c =>
    simp only [truthy, Bool.not_eq_false'] at h
    simp [pageBlock, h]

theorem pageBlock_truthy {c : List Char} (hc : c ≠ []) (n : Nat) :
    pageBlock n (some c) =
      pageHeader n ++ (pyStrip (collapseLoop c) ++ ['\n']) := by
  simp [pageBlock, List.isEmpty_iff, hc]

theorem pageBlock_head {o : Option (List Char)} {n : Nat}
    (h : pageBlock n o ≠ []) : (pageBlock n o).head? = some '\n' := by
  cases o with
  | none => exact absurd rfl h
  | some c =>
    by_cases hc : c = []
    · subst hc
      exact absurd rfl h
    · rw [pageBlock_truthy hc, pageHeader_cons]
      rfl

/-- Does a page contribute a block to the report?  (Its `extract_text` returns
a truthy string.) -/
def contributes : PageText → Bool
  | PageText.raise _ => false
  | PageText.text o => truthy o

theorem extractLoop_ok_head : (n : Nat) → (ps : List PageText) →
    (r : List Char) → extractLoop n ps = Except.ok r → r ≠ [] →
    r.head? = some '\n'
  | _, [], r, h, hr => by
    rw [extractLoop_nil] at h
    cases h
    exact absurd rfl hr
  | _, PageText.raise msg :: rest, r, h, hr => by
    rw [extractLoop_raise] at h
    cases h
  | n, PageText.text o :: rest, r, h, hr => by
    rw [extractLoop_text] at h
    cases he : extractLoop (n + 1) rest with
    | error m => rw [he] at h; cases h
    | ok r' =>
      rw [he] at h
      simp only [Except.map, Except.ok.injEq] at h
      subst h
      by_cases hb : pageBlock n o = []
      · rw [hb, List.nil_append] at hr ⊢
        exact extractLoop_ok_head (n + 1) rest r' he hr
      · cases hpb : pageBlock n o with
        | nil => exact absurd hpb hb
        | cons b bs =>
          have hh := pageBlock_head (n := n) (o := o) hb
          rw [hpb, List.head?_cons, Option.some.injEq] at hh
          simp [hh]

theorem extractLoop_ok_ne_nil : (n : Nat) → (ps : List PageText) →
    (r : List Char) → extractLoop n ps = Except.ok r →
    1 ≤ (ps.filter contributes).length → r ≠ []
  | _, [], r, h, hc => by simp at hc
  | _, PageText.raise msg :: rest, r, h, hc => by
    rw [extractLoop_raise] at h
    cases h
  | n, PageText.text o :: rest, r, h, hc => by
    rw [extractLoop_text] at h
    cases he : extractLoop (n + 1) rest with
    | error m => rw [he] at h; cases h
    | ok r' =>
      rw [he] at h
      simp only [Except.map, Except.ok.injEq] at h
      subst h
      by_cases ht : truthy o = true
      · cases o with
        | none => simp [truthy] at ht
        | some c =>
          have hc' : c ≠ [] := by
            simp only [truthy, Bool.not_eq_true', List.isEmpty_eq_false] at ht
            exact ht
          rw [pageBlock_truthy hc', pageHeader_cons]
          simp
      · have hfalse : truthy o = false := by
          cases htv : truthy o
          · rfl
          · exact absurd htv ht
        rw [pageBlock_falsy hfalse, List.nil_append]
        refine extractLoop_ok_ne_nil (n + 1) rest r' he ?_
        simp only [List.filter_cons, contributes, hfalse] at hc
        simpa using hc

theorem extractLoop_double : (n : Nat) → (ps : List PageText) →
    (r : List Char) → extractLoop n ps = Except.ok r →
    2 ≤ (ps.filter contributes).length → hasDoubleNewline r = true
  | _, [], r, h, hc => by simp at hc
  | _, PageText.raise msg :: rest, r, h, hc => by
    rw [extractLoop_raise] at h
    cases h
  | n, PageText.text o :: rest, r, h, hc => by
    rw [extractLoop_text] at h
    cases he : extractLoop (n + 1) rest with
    | error m => rw [he] at h; cases h
    | ok r' =>
      rw [he] at h
      simp only [Except.map, Except.ok.injEq] at h
      subst h
      cases htv : truthy o with
      | false =>
        rw [pageBlock_falsy htv, List.nil_append]
        refine extractLoop_double (n + 1) rest r' he ?_
        simp only [List.filter_cons, contributes, htv] at hc
        simp only [if_false, Bool.false_eq_true] at hc
        exact hc
      | true =>
        have hrest : 1 ≤ (rest.filter contributes).length := by
          simp [List.filter_cons, contributes, htv] at hc
          omega
        have hr'ne := extractLoop_ok_ne_nil (n + 1) rest r' he hrest
        have hr'h := extractLoop_ok_head (n + 1) rest r' he hr'ne
        cases o with
        | none => simp [truthy] at htv
        | some c =>
          have hc' : c ≠ [] := by
            simp only [truthy, Bool.not_eq_true', List.isEmpty_eq_false] at htv
            exact htv
          cases r' with
          | nil => exact absurd rfl hr'ne
          | cons a t =>
            rw [List.head?_cons, Option.some.injEq] at hr'h
            subst hr'h
            have hshape : pageBlock n (some c) ++ '\n' :: t =
                (pageHeader n ++ pyStrip (collapseLoop c)) ++
                  '\n' :: '\n' :: t := by
              rw [pageBlock_truthy hc']
              simp
            rw [hshape]
            exact hasDoubleNewline_append_nlnl _ _

theorem collapseOnce_of_noDouble : (s : List Char) →
    hasDoubleNewline s = false → collapseOnce s = s
  | [], _ => rfl
  | [c], _ => rfl
  | c1 :: c2 :: rest, h => by
    have hc : ¬ (c1 = '\n' ∧ c2 = '\n') := by
      rw [hasDoubleNewline_cons_cons] at h
      simp only [Bool.or_eq_false_iff, Bool.and_eq_false_iff] at h
      rcases h.1 with hd | hd <;> simp_all
    rw [collapseOnce, if_neg hc,
      collapseOnce_of_noDouble (c2 :: rest) (hasDoubleNewline_tail h)]

/-- C2: for every path at which no file exists, `read_data_tool` returns
exactly `"Error: File not found at {path}"` with the literal path appended,
whatever opening the document would have done (it is never attempted: the
result does not depend on `d`). -/
theorem c2_file_not_found (path : List Char) (d : OpenedDoc) :
    read_data_tool path ⟨false, d⟩ =
      "Error: File not found at ".data ++ path := by
  simp [read_data_tool]

/-- C1: `read_data_tool` is a total function into strings (it is a Lean `def`
with no exceptions), and any exception raised while opening the document or
while extracting a page's text is caught and converted to
`"Error reading PDF: {message}"`. -/
theorem c1_exceptions_caught (path msg : List Char) (pre rest : List PageText) :
    read_data_tool path ⟨true, OpenedDoc.raise msg⟩ =
      "Error reading PDF: ".data ++ msg ∧
    ((∀ m, PageText.raise m ∉ pre) →
      read_data_tool path
          ⟨true, OpenedDoc.pages (pre ++ PageText.raise msg :: rest)⟩ =
        "Error reading PDF: ".data ++ msg) := by
  constructor
  · simp [read_data_tool]
  · intro hpre
    have herr := extractLoop_error_of_raise 0 pre msg rest hpre
    simp [read_data_tool, herr]

theorem c1_exceptions_caught_witness :
    read_data_tool "a.pdf".data ⟨true, OpenedDoc.raise "bad header".data⟩ =
      "Error reading PDF: ".data ++ "bad header".data ∧
    read_data_tool "a.pdf".data
        ⟨true, OpenedDoc.pages
          [PageText.text (some "Hi".data), PageText.raise "page broken".data]⟩ =
      "Error reading PDF: ".data ++ "page broken".data :=
  ⟨(c1_exceptions_caught "a.pdf".data "bad header".data [] []).1,
    (c1_exceptions_caught "a.pdf".data "page broken".data
        [PageText.text (some "Hi".data)] []).2 (by intro m; simp)⟩

/-- Helper: some finite number of `replace("\n\n", "\n")` passes reaches
`collapseLoop s` (length-bounded recursion). -/
theorem c6_collapse_loop_terminates_aux : (n : Nat) → (s : List Char) →
    s.length ≤ n → ∃ k, collapseOnce^[k] s = collapseLoop s
  | n, s, h => by
    cases hd : hasDoubleNewline s with
    | false => exact ⟨0, by simp [collapseLoop_of_neg hd]⟩
    | true =>
      cases n with
      | zero =>
        have : s = [] := List.length_eq_zero.mp (by omega)
        subst this
        simp [hasDoubleNewline] at hd
      | succ n =>
        have hlt := collapseOnce_length_lt hd
        obtain ⟨k, hk⟩ :=
          c6_collapse_loop_terminates_aux n (collapseOnce s) (by omega)
        exact ⟨k + 1, by rw [Function.iterate_succ_apply, hk,
          collapseLoop_of_pos hd]⟩

/-- C6: for every input string the `while "\n\n" in content` loop terminates,
reaching a string that contains no double-newline substring. -/
theorem c6_collapse_loop_terminates (s : List Char) :
    ∃ k, collapseOnce^[k] s = collapseLoop s ∧
      hasDoubleNewline (collapseLoop s) = false := by
  obtain ⟨k, hk⟩ := c6_collapse_loop_terminates_aux s.length s le_rfl
  exact ⟨k, hk, hasDoubleNewline_collapseLoop s⟩

/-- C7: the newline normalization is idempotent — on a string already free of
two consecutive newlines, the `while` loop leaves the string unchanged (it
does not even run: a single `replace` pass is also the identity there). -/
theorem c7_collapse_idempotent (s : List Char)
    (h : hasDoubleNewline s = false) :
    collapseLoop s = s ∧ collapseOnce s = s :=
  ⟨collapseLoop_of_neg h, collapseOnce_of_noDouble s h⟩

theorem c7_collapse_idempotent_witness :
    hasDoubleNewline "Revenue\nGrowth".data = false ∧
    collapseLoop "Revenue\nGrowth".data = "Revenue\nGrowth".data ∧
    collapseOnce "Revenue\nGrowth".data = "Revenue\nGrowth".data :=
  ⟨by decide, (c7_collapse_idempotent "Revenue\nGrowth".data (by decide)).1,
    (c7_collapse_idempotent "Revenue\nGrowth".data (by decide)).2⟩

/-- C8: `read_data_tool` is deterministic — two calls on the same path whose
underlying file is unchanged (same existence bit, same parse outcome, the
latter being what the library's determinism provides) return identical
strings. -/
theorem c8_deterministic (path : List Char) (f1 f2 : PdfFile)
    (h1 : f1.fileExists = f2.fileExists) (h2 : f1.doc = f2.doc) :
    read_data_tool path f1 = read_data_tool path f2 := by
  cases f1
  cases f2
  cases h1
  cases h2
  rfl

theorem c8_deterministic_witness :
    (PdfFile.mk true (OpenedDoc.pages [])).fileExists =
      (PdfFile.mk true (OpenedDoc.pages [])).fileExists ∧
    (PdfFile.mk true (OpenedDoc.pages [])).doc =
      (PdfFile.mk true (OpenedDoc.pages [])).doc ∧
    read_data_tool "a.pdf".data (PdfFile.mk true (OpenedDoc.pages [])) =
      read_data_tool "a.pdf".data (PdfFile.mk true (OpenedDoc.pages [])) :=
  ⟨rfl, rfl, c8_deterministic "a.pdf".data _ _ rfl rfl⟩

/-- C3: for every page with non-empty extracted text, the block appended to
the report is exactly the marker line `"\n--- Page {n+1} ---\n"` (the loop
index `n` counts from 0, so pages are numbered from 1 in document order)
followed by the page's text with every newline run fully collapsed to a
single newline (`collapseSpec`, the spec-side normalizer, which the source's
`while` loop provably equals) and trimmed, followed by one trailing newline;
the appended body contains no two consecutive newlines. -/
theorem c3_page_block_format (n : Nat) (c : List Char) (rest : List PageText)
    (hc : c ≠ []) :
    extractLoop n (PageText.text (some c) :: rest) =
      Except.map (fun r =>
          (pageHeader n ++ (pyStrip (collapseSpec c) ++ ['\n'])) ++ r)
        (extractLoop (n + 1) rest) ∧
    hasDoubleNewline (pyStrip (collapseSpec c)) = false := by
  constructor
  · rw [extractLoop_text, pageBlock_truthy hc]
    simp only [collapseLoop_eq_collapseSpec]
  · rw [← collapseLoop_eq_collapseSpec]
    exact hasDoubleNewline_pyStrip (hasDoubleNewline_collapseLoop c)

theorem c3_page_block_format_witness :
    "Revenue\n\n\nGrowth".data ≠ [] ∧
    (extractLoop 0 [PageText.text (some "Revenue\n\n\nGrowth".data)] =
      Except.map (fun r =>
          (pageHeader 0 ++
            (pyStrip (collapseSpec "Revenue\n\n\nGrowth".data) ++ ['\n'])) ++ r)
        (extractLoop 1 []) ∧
    hasDoubleNewline (pyStrip (collapseSpec "Revenue\n\n\nGrowth".data)) =
      false) :=
  ⟨by decide,
    c3_page_block_format 0 "Revenue\n\n\nGrowth".data [] (by decide)⟩

/-- C4: for a document that opens, if the accumulated report strips to the
empty string the routine returns the literal warning string, and otherwise it
returns the accumulated report itself, which begins with the leading newline
of the first page marker. -/
theorem c4_empty_report_warning (path : List Char) (ps : List PageText)
    (r : List Char) (h : extractLoop 0 ps = Except.ok r) :
    ((pyStrip r).isEmpty = true →
      read_data_tool path ⟨true, OpenedDoc.pages ps⟩ =
        "Warning: No readable text found in the PDF.".data) ∧
    ((pyStrip r).isEmpty = false →
      read_data_tool path ⟨true, OpenedDoc.pages ps⟩ = r ∧
        r.head? = some '\n') := by
  constructor
  · intro hw
    simp [read_data_tool, h, hw]
  · intro hw
    refine ⟨by simp [read_data_tool, h, hw], ?_⟩
    refine extractLoop_ok_head 0 ps r h ?_
    intro hnil
    rw [hnil] at hw
    simp [pyStrip] at hw

theorem c4_empty_report_warning_witness :
    extractLoop 0 [PageText.text (some "Hi".data)] =
      Except.ok "\n--- Page 1 ---\nHi\n".data ∧
    read_data_tool "a.pdf".data
        ⟨true, OpenedDoc.pages [PageText.text (some "Hi".data)]⟩ =
      "\n--- Page 1 ---\nHi\n".data ∧
    ("\n--- Page 1 ---\nHi\n".data).head? = some '\n' := by
  have hok : extractLoop 0 [PageText.text (some "Hi".data)] =
      Except.ok "\n--- Page 1 ---\nHi\n".data := by
    rw [extractLoop_text, extractLoop_nil,
      pageBlock_truthy (c := "Hi".data) (by decide) 0,
      collapseLoop_of_neg (s := "Hi".data) (by decide)]
    simp only [Except.map]
    exact congrArg Except.ok (by decide)
  have h := (c4_empty_report_warning "a.pdf".data
      [PageText.text (some "Hi".data)] "\n--- Page 1 ---\nHi\n".data hok).2
      (by decide)
  exact ⟨hok, h.1, h.2⟩

/-- C5: pages whose extracted text is empty or absent contribute no marker
and no content, while the page numbering still advances: for a raise-free
document the report is exactly the concatenation of the per-page blocks in
document order (`reportBlocks`), a falsy page's block is empty, and skipping
it hands the loop index `n + 1` on to the rest, so numbering gaps stay
visible. -/
theorem c5_empty_pages_skipped (n : Nat) (os : List (Option (List Char)))
    (o : Option (List Char)) (rest : List PageText) :
    extractLoop n (os.map PageText.text) =
      Except.ok (reportBlocks n os).flatten ∧
    (truthy o = false → pageBlock n o = []) ∧
    (truthy o = false →
      extractLoop n (PageText.text o :: rest) = extractLoop (n + 1) rest) := by
  refine ⟨extractLoop_map_text n os, fun h => pageBlock_falsy h n, ?_⟩
  intro h
  rw [extractLoop_text, pageBlock_falsy h]
  cases extractLoop (n + 1) rest with
  | error m => rfl
  | ok r => simp [Except.map]

theorem c5_empty_pages_skipped_witness :
    extractLoop 0 ([some "A".data, none, some "B".data].map PageText.text) =
      Except.ok (reportBlocks 0 [some "A".data, none, some "B".data]).flatten ∧
    pageBlock 0 (none : Option (List Char)) = [] ∧
    extractLoop 0 [PageText.text none] = extractLoop 1 [] :=
  ⟨(c5_empty_pages_skipped 0 [some "A".data, none, some "B".data] none []).1,
    (c5_empty_pages_skipped 0 [some "A".data, none, some "B".data]
        none []).2.1 rfl,
    (c5_empty_pages_skipped 0 [some "A".data, none, some "B".data]
        none []).2.2 rfl⟩

theorem pyStrip_isEmpty_false_of_mem {s : List Char} {c : Char} (hc : c ∈ s)
    (hns : pyIsSpace c = false) : (pyStrip s).isEmpty = false := by
  cases h : pyStrip s with
  | nil =>
    have hmem := (pyStrip_eq_nil_iff s).mp h c hc
    rw [hns] at hmem
    exact Bool.noConfusion hmem
  | cons a t => rfl

/-- C9: a page whose extracted text is non-empty but all whitespace is still
truthy in `if content:`, so it contributes its marker followed by an empty
trimmed body and a newline; consequently a document made of such a page
yields the marker-bearing report, not the warning string. -/
theorem c9_whitespace_page_contributes (n : Nat) (c : List Char)
    (rest : List PageText) (path : List Char) (hc : c ≠ [])
    (hws : ∀ ch ∈ c, pyIsSpace ch = true) :
    extractLoop n (PageText.text (some c) :: rest) =
      Except.map (fun r => (pageHeader n ++ ['\n']) ++ r)
        (extractLoop (n + 1) rest) ∧
    read_data_tool path ⟨true, OpenedDoc.pages [PageText.text (some c)]⟩ =
      pageHeader 0 ++ ['\n'] ∧
    read_data_tool path ⟨true, OpenedDoc.pages [PageText.text (some c)]⟩ ≠
      "Warning: No readable text found in the PDF.".data := by
  have hbody : pyStrip (collapseLoop c) = [] :=
    (pyStrip_eq_nil_iff _).mpr (fun d hd => hws d (mem_collapseLoop hd))
  have hblock : ∀ m, pageBlock m (some c) = pageHeader m ++ ['\n'] := by
    intro m
    rw [pageBlock_truthy hc, hbody, List.nil_append]
  have hone : extractLoop 0 [PageText.text (some c)] =
      Except.ok (pageHeader 0 ++ ['\n']) := by
    rw [extractLoop_text, extractLoop_nil, hblock]
    simp [Except.map]
  have hstrip : (pyStrip (pageHeader 0 ++ ['\n'])).isEmpty = false :=
    pyStrip_isEmpty_false_of_mem
      (List.mem_append.mpr (Or.inl (hyphen_mem_pageHeader 0))) (by decide)
  have hval : read_data_tool path
      ⟨true, OpenedDoc.pages [PageText.text (some c)]⟩ =
      pageHeader 0 ++ ['\n'] := by
    simp [read_data_tool, hone, hstrip]
  refine ⟨?_, hval, ?_⟩
  · rw [extractLoop_text, hblock]
  · rw [hval]
    intro heq
    have h1 := congrArg List.head? heq
    have hh : (pageHeader 0 ++ ['\n']).head? = some '\n' := by
      rw [pageHeader_cons]
      rfl
    have hw : ("Warning: No readable text found in the PDF.".data).head? =
        some 'W' := by decide
    rw [hh, hw] at h1
    exact absurd h1 (by decide)

theorem c9_whitespace_page_contributes_witness :
    " ".data ≠ [] ∧ (∀ ch ∈ " ".data, pyIsSpace ch = true) ∧
    (extractLoop 0 [PageText.text (some " ".data)] =
      Except.map (fun r => (pageHeader 0 ++ ['\n']) ++ r) (extractLoop 1 []) ∧
    read_data_tool "a.pdf".data
        ⟨true, OpenedDoc.pages [PageText.text (some " ".data)]⟩ =
      pageHeader 0 ++ ['\n'] ∧
    read_data_tool "a.pdf".data
        ⟨true, OpenedDoc.pages [PageText.text (some " ".data)]⟩ ≠
      "Warning: No readable text found in the PDF.".data) :=
  ⟨by decide, by decide,
    c9_whitespace_page_contributes 0 " ".data [] "a.pdf".data
      (by decide) (by decide)⟩

/-- C10: the no-double-newline guarantee is per-page only: every contributing
page's block both starts and ends with a newline, and any report to which at
least two pages contribute contains the substring `"\n\n"` (one page's
trailing newline immediately followed by the next marker's leading
newline). -/
theorem c10_boundary_double_newline (n : Nat) (c : List Char)
    (ps : List PageText) (r : List Char) (hc : c ≠ []) :
    (pageBlock n (some c)).head? = some '\n' ∧
    (pageBlock n (some c)).getLast? = some '\n' ∧
    (extractLoop n ps = Except.ok r →
      2 ≤ (ps.filter contributes).length →
      hasDoubleNewline r = true) := by
  refine ⟨?_, ?_, fun h hcnt => extractLoop_double n ps r h hcnt⟩
  · rw [pageBlock_truthy hc, pageHeader_cons]
    rfl
  · rw [pageBlock_truthy hc, ← List.append_assoc]
    exact List.getLast?_concat _

theorem c10_boundary_double_newline_witness :
    "A".data ≠ [] ∧
    (pageBlock 0 (some "A".data)).head? = some '\n' ∧
    (pageBlock 0 (some "A".data)).getLast? = some '\n' ∧
    hasDoubleNewline "\n--- Page 1 ---\nA\n\n--- Page 2 ---\nB\n".data =
      true := by
  have hok : extractLoop 0
      [PageText.text (some "A".data), PageText.text (some "B".data)] =
      Except.ok "\n--- Page 1 ---\nA\n\n--- Page 2 ---\nB\n".data := by
    rw [extractLoop_text, extractLoop_text, extractLoop_nil,
      pageBlock_truthy (c := "A".data) (by decide) 0,
      pageBlock_truthy (c := "B".data) (by decide) 1,
      collapseLoop_of_neg (s := "A".data) (by decide),
      collapseLoop_of_neg (s := "B".data) (by decide)]
    simp only [Except.map]
    exact congrArg Except.ok (by decide)
  have h := c10_boundary_double_newline 0 "A".data
      [PageText.text (some "A".data), PageText.text (some "B".data)]
      "\n--- Page 1 ---\nA\n\n--- Page 2 ---\nB\n".data (by decide)
  exact ⟨by decide, h.1, h.2.1, h.2.2 hok (by decide)⟩
